import Mathlib

/-!
Verification of the asset container format implemented in
`crates/rust-analyzer/src/asset.rs`.

The module serializes a `Project` (a list of files, each with a path, a
content, a flat preorder node list and a list of annotations) into a binary
container: a header (magic byte, version, string-table offset, file count),
the per-file records, and a deduplicating string table at the end.

Modelling choices:
* Rust `String` is a UTF-8 byte buffer; we model it as its byte sequence
  (`Str := List Nat`), `s.len()` being the byte length and `s.as_bytes()`
  the bytes themselves.  The `String::from_utf8` re-validation performed by
  `StringTable::read` is the identity on byte sequences that came out of a
  `String`, and none of the properties below depend on rejecting invalid
  UTF-8, so it is not modelled.
* `usize`/`u32` values are `Nat`; the `as u32` casts of the source become
  explicit reductions modulo `2 ^ 32` inside `le32`.
* The `Cursor<Vec<u8>>` sink of `encode` is a pair of a byte buffer and a
  write position (`WState`); `Seek` repositions, `write_all` overwrites in
  place.  The source of `decode` is likewise a buffer plus a read position
  (`RState`); `read_exact` fails (`ErrorKind::UnexpectedEof`) when fewer
  bytes remain than requested.
* `anyhow::Result` failures of `decode` become an explicit error type
  `DecodeError` with one constructor per distinct failure of the source.
  `encode`'s only non-I/O failure is the internal `idx` lookup, so it
  returns `Option`.
-/

namespace Asset

/-- A Rust `String`, modelled as its UTF-8 byte sequence. -/
abbrev Str := List Nat

/-- `const MAGIC: u8 = 0xde`. -/
def MAGIC : Nat := 0xde

/-- `const ASSET_ENCODING_VERSION: u32 = 1`. -/
def ASSET_ENCODING_VERSION : Nat := 1

/-- A range in a file (start and end offsets). -/
structure Range where
  offset : Nat
  end_offset : Nat
deriving DecidableEq, Repr, Inhabited

/-- A node in the AST: a range plus the type name of the node. -/
structure Node where
  range : Range
  node_type : Str
deriving DecidableEq, Repr, Inhabited

/-- A message annotation (or parser error): a range plus the text. -/
structure Annotation where
  range : Range
  text : Str
deriving DecidableEq, Repr, Inhabited

/-- A file: path, content, flat preorder node list, annotation list. -/
structure File where
  path : Str
  content : Str
  tree : List Node
  errors : List Annotation
deriving DecidableEq, Repr, Inhabited

/-- A collection of files which can be encoded as an asset. -/
structure Project where
  files : List File
deriving DecidableEq, Repr, Inhabited

/-! ### Little-endian 32-bit fields -/

/-- `(x as u32).to_le_bytes()`: the four little-endian bytes of
`x % 2 ^ 32`. -/
def le32 (x : Nat) : List Nat :=
  [x % 256, x / 256 % 256, x / 65536 % 256, x / 16777216 % 256]

/-- `u32::from_le_bytes` on a four-byte buffer. -/
def fromLE32 (bs : List Nat) : Nat :=
  match bs with
  | [a, b, c, d] => a + 256 * b + 65536 * c + 16777216 * d
  | _ => 0

/-! ### The write sink (`Cursor<Vec<u8>>`) -/

/-- State of the `Write + Seek` sink: the bytes written so far and the
current write position. -/
structure WState where
  buf : List Nat
  pos : Nat
deriving Repr

/-- `write_all`: overwrite bytes at the current position (zero-filling the
gap when the position lies past the end, as `Cursor` does) and advance the
position. -/
def writeAll (w : WState) (bs : List Nat) : WState :=
  { buf := w.buf.take w.pos ++ List.replicate (w.pos - w.buf.length) 0 ++ bs
      ++ w.buf.drop (w.pos + bs.length),
    pos := w.pos + bs.length }

/-! ### String table builder (encode side) -/

/-- Encode-side string table builder.  The Rust struct keeps a
`HashMap<String, usize>` and a `Vec<String>` in sync: `add` inserts into
both together, so the map always sends each string of `vec` to its unique
position in `vec`.  The map is thus determined by `vec` and only `vec` is
represented; `idx` recovers the stored index as the position in `vec`. -/
structure StringTableBuilder where
  vec : List Str
deriving Repr

/-- `add`: register a string if not already present, assigning it the next
sequential index (= the current length of `vec`). -/
def StringTableBuilder.add (b : StringTableBuilder) (s : Str) : StringTableBuilder :=
  if s ∈ b.vec then b else { vec := b.vec ++ [s] }

/-- The position of the first occurrence of `s` in `l`: the index the
`HashMap` stores for `s`, since `add` inserts map entry and vector element
together. -/
def posOf (s : Str) : List Str → Nat
  | [] => 0
  | t :: l => if t = s then 0 else posOf s l + 1

/-- `idx`: the index assigned to `s`, or `none` (the "string not found in
table" error) when `s` was never added. -/
def StringTableBuilder.idx (b : StringTableBuilder) (s : Str) : Option Nat :=
  if s ∈ b.vec then some (posOf s b.vec) else none

/-- `StringTableBuilder::write`: a 4-byte count of unique strings, then for
each string (in assigned-index order) a 4-byte length prefix and the raw
bytes. -/
def StringTableBuilder.write (b : StringTableBuilder) (w : WState) : WState :=
  b.vec.foldl (fun w s => writeAll (writeAll w (le32 s.length)) s)
    (writeAll w (le32 b.vec.length))

/-- The first pass of `encode` over one file: add its path, content, node
types and annotation texts, in that order. -/
def addFile (b : StringTableBuilder) (f : File) : StringTableBuilder :=
  let b := b.add f.path
  let b := b.add f.content
  let b := f.tree.foldl (fun b n => b.add n.node_type) b
  f.errors.foldl (fun b a => b.add a.text) b

/-- The string table built by the first pass of `encode`. -/
def buildTable (p : Project) : StringTableBuilder :=
  p.files.foldl addFile { vec := [] }

/-! ### Encoder -/

/-- One node record: offset, end offset, node-type index. -/
def writeNode (tb : StringTableBuilder) (w : WState) (n : Node) : Option WState := do
  let w := writeAll w (le32 n.range.offset)
  let w := writeAll w (le32 n.range.end_offset)
  let i ← tb.idx n.node_type
  some (writeAll w (le32 i))

def writeNodes (tb : StringTableBuilder) (w : WState) : List Node → Option WState
  | [] => some w
  | n :: ns => do
    let w ← writeNode tb w n
    writeNodes tb w ns

/-- One annotation record: offset, end offset, text index. -/
def writeAnn (tb : StringTableBuilder) (w : WState) (a : Annotation) : Option WState := do
  let w := writeAll w (le32 a.range.offset)
  let w := writeAll w (le32 a.range.end_offset)
  let i ← tb.idx a.text
  some (writeAll w (le32 i))

def writeAnns (tb : StringTableBuilder) (w : WState) : List Annotation → Option WState
  | [] => some w
  | a :: as_ => do
    let w ← writeAnn tb w a
    writeAnns tb w as_

/-- One file record: path index, content index, node count, nodes,
annotation count, annotations. -/
def writeFile (tb : StringTableBuilder) (w : WState) (f : File) : Option WState := do
  let pi_ ← tb.idx f.path
  let w := writeAll w (le32 pi_)
  let ci ← tb.idx f.content
  let w := writeAll w (le32 ci)
  let w := writeAll w (le32 f.tree.length)
  let w ← writeNodes tb w f.tree
  let w := writeAll w (le32 f.errors.length)
  writeAnns tb w f.errors

def writeFiles (tb : StringTableBuilder) (w : WState) : List File → Option WState
  | [] => some w
  | f :: fs => do
    let w ← writeFile tb w f
    writeFiles tb w fs

/-- `Project::encode`, producing the final byte buffer of the sink.
`none` is the internal "string not found in table" failure. -/
def Project.encode (p : Project) : Option (List Nat) := do
  let tb := buildTable p
  let w : WState := { buf := [], pos := 0 }
  let w := writeAll w [MAGIC]
  let w := writeAll w (le32 ASSET_ENCODING_VERSION)
  let stOffPos := w.pos
  let w := writeAll w (le32 0)
  let w := writeAll w (le32 p.files.length)
  let w ← writeFiles tb w p.files
  let stOff := w.pos
  let cur := w.pos
  let w := writeAll { w with pos := stOffPos } (le32 stOff)
  let w := { w with pos := cur }
  let w := tb.write w
  some w.buf

/-! ### The read source (`Cursor`-like, `Read + Seek`) -/

/-- The distinct failures of `decode`, one constructor per `bail!`/`?`
site of the source (I/O truncation, invalid magic, version mismatch,
string index out of range). -/
inductive DecodeError where
  | truncated
  | invalidMagic (b : Nat)
  | versionMismatch (v : Nat)
  | indexOutOfRange (i : Nat)
deriving DecidableEq, Repr

/-- State of the `Read + Seek` source: the full byte buffer and the current
read position. -/
structure RState where
  buf : List Nat
  pos : Nat
deriving Repr

/-- `read_exact` into an `n`-byte buffer: succeeds returning the next `n`
bytes exactly when at least `n` bytes remain, else fails with
`UnexpectedEof`. -/
def readExact (r : RState) (n : Nat) : Except DecodeError (List Nat × RState) :=
  if n ≤ r.buf.length - r.pos then
    .ok ((r.buf.drop r.pos).take n, { r with pos := r.pos + n })
  else .error .truncated

/-- `read_u32`: four bytes, little-endian. -/
def read_u32 (r : RState) : Except DecodeError (Nat × RState) := do
  let (bs, r) ← readExact r 4
  .ok (fromLE32 bs, r)

/-! ### String table (decode side) -/

/-- Decode-side string table: an immutable list of strings. -/
structure StringTable where
  vec : List Str
deriving Repr

/-- `StringTable::get`: `self.vec.get(idx)`, failing with the
"string index out of range" error when `idx` is past the end. -/
def StringTable.get (t : StringTable) (i : Nat) : Except DecodeError Str :=
  match t.vec[i]? with
  | some s => .ok s
  | none => .error (.indexOutOfRange i)

/-- The entry-reading loop of `StringTable::read`: for each of `n` entries
read a 4-byte length prefix and then exactly that many bytes.
(`String::from_utf8` is the identity on our byte-sequence strings.) -/
def readStrings (r : RState) : Nat → Except DecodeError (List Str × RState)
  | 0 => .ok ([], r)
  | k + 1 => do
    let (len, r) ← read_u32 r
    let (bs, r) ← readExact r len
    let (rest, r) ← readStrings r k
    .ok (bs :: rest, r)

/-- `StringTable::read`: a 4-byte count, then the entries. -/
def StringTable.read (r : RState) : Except DecodeError (StringTable × RState) := do
  let (n, r) ← read_u32 r
  let (v, r) ← readStrings r n
  .ok ({ vec := v }, r)

/-! ### Decoder -/

/-- The node-reading loop of `decode`: each node is offset, end offset and
node-type index, the index resolved through the string table at once. -/
def readNodes (t : StringTable) (r : RState) : Nat → Except DecodeError (List Node × RState)
  | 0 => .ok ([], r)
  | k + 1 => do
    let (off, r) ← read_u32 r
    let (e, r) ← read_u32 r
    let (ti, r) ← read_u32 r
    let ty ← t.get ti
    let (rest, r) ← readNodes t r k
    .ok ({ range := { offset := off, end_offset := e }, node_type := ty } :: rest, r)

/-- The annotation-reading loop of `decode`. -/
def readAnns (t : StringTable) (r : RState) : Nat → Except DecodeError (List Annotation × RState)
  | 0 => .ok ([], r)
  | k + 1 => do
    let (off, r) ← read_u32 r
    let (e, r) ← read_u32 r
    let (ti, r) ← read_u32 r
    let tx ← t.get ti
    let (rest, r) ← readAnns t r k
    .ok ({ range := { offset := off, end_offset := e }, text := tx } :: rest, r)

/-- The file-reading loop of `decode`.  As in the source, the path and
content indices are read first but resolved through the table only after
the node and annotation loops. -/
def readFiles (t : StringTable) (r : RState) : Nat → Except DecodeError (List File × RState)
  | 0 => .ok ([], r)
  | k + 1 => do
    let (pi_, r) ← read_u32 r
    let (ci, r) ← read_u32 r
    let (nn, r) ← read_u32 r
    let (tree, r) ← readNodes t r nn
    let (ne, r) ← read_u32 r
    let (errs, r) ← readAnns t r ne
    let path ← t.get pi_
    let content ← t.get ci
    let (rest, r) ← readFiles t r k
    .ok ({ path := path, content := content, tree := tree, errors := errs } :: rest, r)

/-- `Project::decode` over a byte buffer. -/
def Project.decode (buf : List Nat) : Except DecodeError Project := do
  let r : RState := { buf := buf, pos := 0 }
  let (mg, r) ← readExact r 1
  let b := mg.headD 0
  if b ≠ MAGIC then
    throw (.invalidMagic b)
  let (version, r) ← read_u32 r
  if version ≠ ASSET_ENCODING_VERSION then
    throw (.versionMismatch version)
  let (stOff, r) ← read_u32 r
  let (numFiles, r) ← read_u32 r
  let filesStart := r.pos
  let r := { r with pos := stOff }
  let (t, r) ← StringTable.read r
  let r := { r with pos := filesStart }
  let (files, _) ← readFiles t r numFiles
  .ok { files := files }

/-! ### Closed forms of the serialized regions -/

/-- The bytes of one node record. -/
def nodeBytes (tb : StringTableBuilder) (n : Node) : List Nat :=
  le32 n.range.offset ++ le32 n.range.end_offset ++ le32 (posOf n.node_type tb.vec)

/-- The bytes of one annotation record. -/
def annBytes (tb : StringTableBuilder) (a : Annotation) : List Nat :=
  le32 a.range.offset ++ le32 a.range.end_offset ++ le32 (posOf a.text tb.vec)

/-- The bytes of one file record. -/
def fileBytes (tb : StringTableBuilder) (f : File) : List Nat :=
  le32 (posOf f.path tb.vec) ++ le32 (posOf f.content tb.vec) ++
  le32 f.tree.length ++ (f.tree.map (nodeBytes tb)).flatten ++
  le32 f.errors.length ++ (f.errors.map (annBytes tb)).flatten

/-- The bytes of the whole file-record region. -/
def recordsBytes (tb : StringTableBuilder) (fs : List File) : List Nat :=
  (fs.map (fileBytes tb)).flatten

/-- The bytes of one string-table entry: length prefix plus raw bytes. -/
def entryBytes (s : Str) : List Nat :=
  le32 s.length ++ s

/-- The bytes of the serialized string table. -/
def tableBytesFor (v : List Str) : List Nat :=
  le32 v.length ++ (v.map entryBytes).flatten

/-- The full container produced by a successful `encode`: header (magic,
version, patched string-table offset, file count), file records, string
table. -/
def encodedBytes (p : Project) : List Nat :=
  [MAGIC] ++ le32 ASSET_ENCODING_VERSION ++
  le32 (13 + (recordsBytes (buildTable p) p.files).length) ++
  le32 p.files.length ++
  recordsBytes (buildTable p) p.files ++
  tableBytesFor (buildTable p).vec

/-! ### Arithmetic of 32-bit fields -/

theorem le32_length (x : Nat) : (le32 x).length = 4 := rfl

theorem fromLE32_le32 (x : Nat) : fromLE32 (le32 x) = x % 2 ^ 32 := by
  show x % 256 + 256 * (x / 256 % 256) + 65536 * (x / 65536 % 256)
      + 16777216 * (x / 16777216 % 256) = x % 2 ^ 32
  have h1 : x % 2 ^ 32 = x % 256 + 256 * (x / 256 % 16777216) := by
    have : (2 : Nat) ^ 32 = 256 * 16777216 := by norm_num
    rw [this, Nat.mod_mul]
  have h2 : x / 256 % 16777216 = x / 256 % 256 + 256 * (x / 256 / 256 % 65536) := by
    have : (16777216 : Nat) = 256 * 65536 := by norm_num
    rw [this, Nat.mod_mul]
  have h3 : x / 256 / 256 % 65536 = x / 256 / 256 % 256 + 256 * (x / 256 / 256 / 256 % 256) := by
    have : (65536 : Nat) = 256 * 256 := by norm_num
    rw [this, Nat.mod_mul]
  have e1 : x / 256 / 256 = x / 65536 := by
    rw [Nat.div_div_eq_div_mul]
  have e2 : x / 65536 / 256 = x / 16777216 := by
    rw [Nat.div_div_eq_div_mul]
  rw [h1, h2, h3, e1, e2]
  ring

theorem fromLE32_le32_of_lt {x : Nat} (h : x < 2 ^ 32) : fromLE32 (le32 x) = x := by
  rw [fromLE32_le32, Nat.mod_eq_of_lt h]

theorem le32_mod (x : Nat) : le32 (x % 2 ^ 32) = le32 x := by
  have key : ∀ d c : Nat, 256 ∣ c → x % (d * c) / d % 256 = x / d % 256 := by
    intro d c hc
    rw [Nat.mod_mul_right_div_self, Nat.mod_mod_of_dvd _ hc]
  show [x % 2 ^ 32 % 256, x % 2 ^ 32 / 256 % 256, x % 2 ^ 32 / 65536 % 256,
    x % 2 ^ 32 / 16777216 % 256] = _
  have h1 : x % 4294967296 % 256 = x % 256 := Nat.mod_mod_of_dvd _ (by norm_num)
  have h2 := key 256 16777216 (by norm_num)
  have h3 := key 65536 65536 (by norm_num)
  have h4 := key 16777216 256 (by norm_num)
  norm_num at h2 h3 h4
  rw [show (2 : Nat) ^ 32 = 4294967296 from by norm_num] at *
  rw [h1, h2, h3, h4]
  rfl

/-! ### Writer lemmas -/

/-- Writing at the end of the buffer appends. -/
theorem writeAll_append (buf bs : List Nat) :
    writeAll { buf := buf, pos := buf.length } bs =
      { buf := buf ++ bs, pos := (buf ++ bs).length } := by
  simp [writeAll, List.take_length, List.drop_eq_nil_of_le (Nat.le_add_right _ _)]

/-! ### Builder membership lemmas -/

theorem mem_add {b : StringTableBuilder} {s t : Str} :
    t ∈ (b.add s).vec ↔ t ∈ b.vec ∨ t = s := by
  unfold StringTableBuilder.add
  by_cases h : s ∈ b.vec
  · rw [if_pos h]
    constructor
    · exact Or.inl
    · rintro (ht | rfl)
      · exact ht
      · exact h
  · rw [if_neg h]
    simp [List.mem_append]

theorem mem_add_of_mem {b : StringTableBuilder} {s t : Str} (h : t ∈ b.vec) :
    t ∈ (b.add s).vec := mem_add.mpr (Or.inl h)

theorem self_mem_add (b : StringTableBuilder) (s : Str) : s ∈ (b.add s).vec :=
  mem_add.mpr (Or.inr rfl)

/-- `addAll` folds `add` over a list of strings; `addFile` and `buildTable`
are instances of it (see `addFile_eq_addAll`, `buildTable_eq_addAll`). -/
def addAll (b : StringTableBuilder) (l : List Str) : StringTableBuilder :=
  l.foldl StringTableBuilder.add b

theorem addAll_nil (b : StringTableBuilder) : addAll b [] = b := rfl

theorem addAll_cons (b : StringTableBuilder) (s : Str) (l : List Str) :
    addAll b (s :: l) = addAll (b.add s) l := rfl

theorem addAll_append (b : StringTableBuilder) (l₁ l₂ : List Str) :
    addAll b (l₁ ++ l₂) = addAll (addAll b l₁) l₂ := by
  simp [addAll, List.foldl_append]

theorem mem_addAll {l : List Str} {b : StringTableBuilder} {t : Str} :
    t ∈ (addAll b l).vec ↔ t ∈ b.vec ∨ t ∈ l := by
  induction l generalizing b with
  | nil => simp [addAll_nil]
  | cons s l ih =>
    rw [addAll_cons, ih, mem_add]
    simp [or_assoc]

/-- The strings of one file, in the order the first pass of `encode` adds
them: path, content, node types, annotation texts. -/
def fileStrings (f : File) : List Str :=
  f.path :: f.content :: (f.tree.map (fun n => n.node_type) ++ f.errors.map (fun a => a.text))

/-- Every textual field occurrence across the project, in the order the
first pass of `encode` visits them. -/
def occList (p : Project) : List Str :=
  (p.files.map fileStrings).flatten

theorem addFile_eq_addAll (b : StringTableBuilder) (f : File) :
    addFile b f = addAll b (fileStrings f) := by
  unfold addFile fileStrings addAll
  simp [List.foldl_append, List.foldl_map]

theorem buildTable_eq_addAll (p : Project) :
    buildTable p = addAll { vec := [] } (occList p) := by
  unfold buildTable occList
  generalize ({ vec := [] } : StringTableBuilder) = b
  induction p.files generalizing b with
  | nil => rfl
  | cons f fs ih =>
    simp only [List.foldl_cons, List.map_cons, List.flatten_cons, addAll_append]
    rw [ih, addFile_eq_addAll]

theorem mem_buildTable {p : Project} {t : Str} :
    t ∈ (buildTable p).vec ↔ t ∈ occList p := by
  rw [buildTable_eq_addAll, mem_addAll]
  simp

theorem idx_of_mem {b : StringTableBuilder} {s : Str} (h : s ∈ b.vec) :
    b.idx s = some (posOf s b.vec) := by
  simp [StringTableBuilder.idx, h]

theorem posOf_lt_length {s : Str} {l : List Str} (h : s ∈ l) :
    posOf s l < l.length := by
  induction l with
  | nil => cases h
  | cons t l ih =>
    unfold posOf
    by_cases ht : t = s
    · simp [ht]
    · rw [if_neg ht]
      have hs : s ∈ l := by
        rcases List.mem_cons.mp h with h1 | h1
        · exact absurd h1.symm ht
        · exact h1
      simpa using ih hs

theorem getElem?_posOf {s : Str} {l : List Str} (h : s ∈ l) :
    l[posOf s l]? = some s := by
  induction l with
  | nil => cases h
  | cons t l ih =>
    unfold posOf
    by_cases ht : t = s
    · simp [ht]
    · rw [if_neg ht]
      have hs : s ∈ l := by
        rcases List.mem_cons.mp h with h1 | h1
        · exact absurd h1.symm ht
        · exact h1
      simpa using ih hs

/-! ### Encode closed form -/

theorem writeNodes_eq (tb : StringTableBuilder) (ns : List Node) (buf : List Nat)
    (h : ∀ n ∈ ns, n.node_type ∈ tb.vec) :
    writeNodes tb { buf := buf, pos := buf.length } ns =
      some { buf := buf ++ (ns.map (nodeBytes tb)).flatten,
             pos := (buf ++ (ns.map (nodeBytes tb)).flatten).length } := by
  induction ns generalizing buf with
  | nil => simp [writeNodes]
  | cons n ns ih =>
    have hn := h n (List.mem_cons_self n ns)
    simp only [writeNodes, writeNode, writeAll_append, idx_of_mem hn, Option.bind_eq_bind,
      Option.some_bind]
    rw [ih _ (fun m hm => h m (List.mem_cons_of_mem n hm))]
    simp [nodeBytes, List.append_assoc]

theorem writeAnns_eq (tb : StringTableBuilder) (as_ : List Annotation) (buf : List Nat)
    (h : ∀ a ∈ as_, a.text ∈ tb.vec) :
    writeAnns tb { buf := buf, pos := buf.length } as_ =
      some { buf := buf ++ (as_.map (annBytes tb)).flatten,
             pos := (buf ++ (as_.map (annBytes tb)).flatten).length } := by
  induction as_ generalizing buf with
  | nil => simp [writeAnns]
  | cons a as_ ih =>
    have ha := h a (List.mem_cons_self a as_)
    simp only [writeAnns, writeAnn, writeAll_append, idx_of_mem ha, Option.bind_eq_bind,
      Option.some_bind]
    rw [ih _ (fun x hx => h x (List.mem_cons_of_mem a hx))]
    simp [annBytes, List.append_assoc]

theorem writeFile_eq (tb : StringTableBuilder) (f : File) (buf : List Nat)
    (hp : f.path ∈ tb.vec) (hc : f.content ∈ tb.vec)
    (hn : ∀ n ∈ f.tree, n.node_type ∈ tb.vec)
    (ha : ∀ a ∈ f.errors, a.text ∈ tb.vec) :
    writeFile tb { buf := buf, pos := buf.length } f =
      some { buf := buf ++ fileBytes tb f, pos := (buf ++ fileBytes tb f).length } := by
  simp only [writeFile, idx_of_mem hp, idx_of_mem hc, writeAll_append, Option.bind_eq_bind,
    Option.some_bind]
  rw [writeNodes_eq tb f.tree _ hn]
  simp only [Option.some_bind, writeAll_append]
  rw [writeAnns_eq tb f.errors _ ha]
  simp [fileBytes, List.append_assoc]

theorem writeFiles_eq (tb : StringTableBuilder) (fs : List File) (buf : List Nat)
    (h : ∀ f ∈ fs, f.path ∈ tb.vec ∧ f.content ∈ tb.vec ∧
      (∀ n ∈ f.tree, n.node_type ∈ tb.vec) ∧ (∀ a ∈ f.errors, a.text ∈ tb.vec)) :
    writeFiles tb { buf := buf, pos := buf.length } fs =
      some { buf := buf ++ recordsBytes tb fs, pos := (buf ++ recordsBytes tb fs).length } := by
  induction fs generalizing buf with
  | nil => simp [writeFiles, recordsBytes]
  | cons f fs ih =>
    obtain ⟨hp, hc, hn, ha⟩ := h f (List.mem_cons_self f fs)
    simp only [writeFiles, Option.bind_eq_bind]
    rw [writeFile_eq tb f buf hp hc hn ha]
    simp only [Option.some_bind]
    rw [ih (buf ++ fileBytes tb f) (fun x hx => h x (List.mem_cons_of_mem f hx))]
    simp [recordsBytes, List.append_assoc]

theorem entriesFold_eq (v : List Str) (buf : List Nat) :
    v.foldl (fun w s => writeAll (writeAll w (le32 s.length)) s)
        { buf := buf, pos := buf.length } =
      { buf := buf ++ (v.map entryBytes).flatten,
        pos := (buf ++ (v.map entryBytes).flatten).length } := by
  induction v generalizing buf with
  | nil => simp
  | cons s v ih =>
    simp only [List.foldl_cons, writeAll_append, List.map_cons, List.flatten_cons]
    rw [ih]
    simp [entryBytes, List.append_assoc]

theorem tableWrite_eq (b : StringTableBuilder) (buf : List Nat) :
    b.write { buf := buf, pos := buf.length } =
      { buf := buf ++ tableBytesFor b.vec, pos := (buf ++ tableBytesFor b.vec).length } := by
  unfold StringTableBuilder.write
  rw [writeAll_append, entriesFold_eq]
  simp [tableBytesFor, List.append_assoc]

theorem fields_mem_buildTable {p : Project} {f : File} (hf : f ∈ p.files) :
    f.path ∈ (buildTable p).vec ∧ f.content ∈ (buildTable p).vec ∧
    (∀ n ∈ f.tree, n.node_type ∈ (buildTable p).vec) ∧
    (∀ a ∈ f.errors, a.text ∈ (buildTable p).vec) := by
  have hseg : ∀ s ∈ fileStrings f, s ∈ occList p := by
    intro s hs
    exact List.mem_flatten.mpr ⟨fileStrings f, List.mem_map_of_mem _ hf, hs⟩
  refine ⟨?_, ?_, ?_, ?_⟩
  · exact mem_buildTable.mpr (hseg _ (by simp [fileStrings]))
  · exact mem_buildTable.mpr (hseg _ (by simp [fileStrings]))
  · intro n hn
    refine mem_buildTable.mpr (hseg _ ?_)
    unfold fileStrings
    exact List.mem_cons_of_mem _ (List.mem_cons_of_mem _
      (List.mem_append_left _ (List.mem_map_of_mem _ hn)))
  · intro a ha
    refine mem_buildTable.mpr (hseg _ ?_)
    unfold fileStrings
    exact List.mem_cons_of_mem _ (List.mem_cons_of_mem _
      (List.mem_append_right _ (List.mem_map_of_mem _ ha)))

theorem writeAll_nil (bs : List Nat) :
    writeAll { buf := [], pos := 0 } bs = { buf := bs, pos := bs.length } := by
  simp [writeAll]

/-- Writing in the middle of the buffer overwrites in place. -/
theorem writeAll_mid (pre mid post bs : List Nat) (h : bs.length = mid.length) :
    writeAll { buf := (pre ++ mid) ++ post, pos := pre.length } bs =
      { buf := (pre ++ bs) ++ post, pos := pre.length + bs.length } := by
  unfold writeAll
  have hlen : pre.length ≤ ((pre ++ mid) ++ post).length := by
    simp [List.length_append]
  have htake : ((pre ++ mid) ++ post).take pre.length = pre := by
    rw [List.append_assoc, List.take_left]
  have hdrop : ((pre ++ mid) ++ post).drop (pre.length + bs.length) = post := by
    rw [List.drop_left' (by simp [h])]
  simp only [htake, hdrop, Nat.sub_eq_zero_of_le hlen, List.replicate_zero, List.nil_append]
  simp [List.append_assoc]

/-- Closed form of a successful `encode`: the final buffer is exactly
`encodedBytes`. -/
theorem encode_eq (p : Project) : p.encode = some (encodedBytes p) := by
  have hall : ∀ f ∈ p.files, f.path ∈ (buildTable p).vec ∧ f.content ∈ (buildTable p).vec ∧
      (∀ n ∈ f.tree, n.node_type ∈ (buildTable p).vec) ∧
      (∀ a ∈ f.errors, a.text ∈ (buildTable p).vec) :=
    fun _ hf => fields_mem_buildTable hf
  simp only [Project.encode, Option.bind_eq_bind]
  rw [writeAll_nil, writeAll_append, writeAll_append, writeAll_append,
    writeFiles_eq _ _ _ hall]
  simp only [Option.some_bind]
  set recs := recordsBytes (buildTable p) p.files with hrecs
  have hshape : ([MAGIC] ++ le32 ASSET_ENCODING_VERSION ++ le32 0 ++ le32 p.files.length)
      ++ recs =
      [MAGIC] ++ le32 ASSET_ENCODING_VERSION ++ le32 0 ++ (le32 p.files.length ++ recs) := by
    simp [List.append_assoc]
  rw [hshape]
  rw [writeAll_mid ([MAGIC] ++ le32 ASSET_ENCODING_VERSION) (le32 0)
    (le32 p.files.length ++ recs)
    (le32 ([MAGIC] ++ le32 ASSET_ENCODING_VERSION ++ le32 0 ++
      (le32 p.files.length ++ recs)).length) rfl]
  dsimp only
  have hL : ([MAGIC] ++ le32 ASSET_ENCODING_VERSION ++ le32 0 ++
      (le32 p.files.length ++ recs)).length = 13 + recs.length := by
    simp [le32]
    omega
  rw [hL]
  set S := le32 (13 + recs.length) with hS
  have hpos : ([MAGIC] ++ le32 ASSET_ENCODING_VERSION ++ S ++
      (le32 p.files.length ++ recs)).length = 13 + recs.length := by
    simp [hS, le32]
    omega
  rw [← hpos, tableWrite_eq]
  simp only [encodedBytes, ← hrecs]
  simp [hS, List.append_assoc]

/-! ### Decoder spec lemmas -/

theorem exbind_ok {α β : Type} (a : α) (f : α → Except DecodeError β) :
    (Except.ok a >>= f) = f a := rfl

theorem exbind_error {α β : Type} (e : DecodeError) (f : α → Except DecodeError β) :
    ((Except.error e : Except DecodeError α) >>= f) = Except.error e := rfl

theorem expure_bind {α β : Type} (a : α) (f : α → Except DecodeError β) :
    ((pure a : Except DecodeError α) >>= f) = f a := rfl

theorem readExact_ok {buf : List Nat} {pos : Nat} {chunk rest : List Nat}
    (h : buf.drop pos = chunk ++ rest) :
    readExact { buf := buf, pos := pos } chunk.length =
      .ok (chunk, { buf := buf, pos := pos + chunk.length }) := by
  have hrem : chunk.length ≤ buf.length - pos := by
    have hlen := congrArg List.length h
    simp [List.length_drop, List.length_append] at hlen
    omega
  unfold readExact
  rw [if_pos hrem]
  simp only []
  rw [h, List.take_left]

theorem readExact_err {buf : List Nat} {pos n : Nat} (h : buf.length - pos < n) :
    readExact { buf := buf, pos := pos } n = .error .truncated := by
  unfold readExact
  rw [if_neg (by simp only []; omega)]

theorem drop_advance {buf : List Nat} {pos : Nat} {chunk rest : List Nat}
    (h : buf.drop pos = chunk ++ rest) :
    buf.drop (pos + chunk.length) = rest := by
  rw [← List.drop_drop, h, List.drop_left]

theorem read_u32_ok {buf : List Nat} {pos : Nat} {x : Nat} {rest : List Nat}
    (h : buf.drop pos = le32 x ++ rest) (hx : x < 2 ^ 32) :
    read_u32 { buf := buf, pos := pos } = .ok (x, { buf := buf, pos := pos + 4 }) := by
  have h' := readExact_ok h
  rw [show (le32 x).length = 4 from rfl] at h'
  unfold read_u32
  rw [h']
  simp only [exbind_ok]
  simp [fromLE32_le32_of_lt hx]

theorem read_u32_err {buf : List Nat} {pos : Nat} (h : buf.length - pos < 4) :
    read_u32 { buf := buf, pos := pos } = .error .truncated := by
  unfold read_u32
  rw [readExact_err h, exbind_error]

theorem tableGet_ok {t : StringTable} {s : Str} (h : s ∈ t.vec) :
    t.get (posOf s t.vec) = .ok s := by
  unfold StringTable.get
  rw [getElem?_posOf h]

theorem tableGet_err {t : StringTable} {i : Nat} (h : t.vec.length ≤ i) :
    t.get i = .error (.indexOutOfRange i) := by
  unfold StringTable.get
  rw [List.getElem?_eq_none h]

theorem readStrings_ok {v : List Str} (hv : ∀ s ∈ v, s.length < 2 ^ 32) :
    ∀ (r : RState) (rest : List Nat),
      r.buf.drop r.pos = (v.map entryBytes).flatten ++ rest →
      readStrings r v.length =
        .ok (v, { buf := r.buf, pos := r.pos + ((v.map entryBytes).flatten).length }) := by
  induction v with
  | nil =>
    intro r rest h
    simp [readStrings]
  | cons s v ih =>
    intro r rest h
    obtain ⟨buf, pos⟩ := r
    simp only [] at h
    have hlen : s.length < 2 ^ 32 := hv s (List.mem_cons_self s v)
    have h1 : buf.drop pos =
        le32 s.length ++ (s ++ ((v.map entryBytes).flatten ++ rest)) := by
      simpa [entryBytes, List.append_assoc] using h
    have hu := read_u32_ok h1 hlen
    have h2 : buf.drop (pos + 4) = s ++ ((v.map entryBytes).flatten ++ rest) := by
      have := drop_advance h1
      simpa using this
    have hx := readExact_ok h2
    have h3 : buf.drop (pos + 4 + s.length) = (v.map entryBytes).flatten ++ rest :=
      drop_advance h2
    have hrec := ih (fun t ht => hv t (List.mem_cons_of_mem s ht))
      { buf := buf, pos := pos + 4 + s.length } rest h3
    show readStrings { buf := buf, pos := pos } (v.length + 1) = _
    unfold readStrings
    rw [hu]
    simp only [exbind_ok]
    rw [hx]
    simp only [exbind_ok]
    rw [hrec]
    simp only [exbind_ok]
    have hpos : pos + 4 + s.length + ((v.map entryBytes).flatten).length =
        pos + (((s :: v).map entryBytes).flatten).length := by
      simp [entryBytes, le32]
      omega
    rw [hpos]

theorem tableRead_ok {v : List Str} (hv : ∀ s ∈ v, s.length < 2 ^ 32)
    (hn : v.length < 2 ^ 32) {buf : List Nat} {pos : Nat} {rest : List Nat}
    (h : buf.drop pos = tableBytesFor v ++ rest) :
    StringTable.read { buf := buf, pos := pos } =
      .ok ({ vec := v }, { buf := buf, pos := pos + (tableBytesFor v).length }) := by
  have h1 : buf.drop pos =
      le32 v.length ++ ((v.map entryBytes).flatten ++ rest) := by
    simpa [tableBytesFor, List.append_assoc] using h
  have hu := read_u32_ok h1 hn
  have h2 : buf.drop (pos + 4) = (v.map entryBytes).flatten ++ rest := by
    have := drop_advance h1
    simpa using this
  have hrec := readStrings_ok hv { buf := buf, pos := pos + 4 } rest h2
  unfold StringTable.read
  rw [hu]
  simp only [exbind_ok]
  rw [hrec]
  simp only [exbind_ok]
  have hpos : pos + 4 + ((v.map entryBytes).flatten).length =
      pos + (tableBytesFor v).length := by
    simp [tableBytesFor, le32]
    omega
  rw [hpos]

theorem readNodes_ok {tb : StringTableBuilder} {t : StringTable} (ht : t.vec = tb.vec)
    (hlen : tb.vec.length < 2 ^ 32) :
    ∀ (ns : List Node),
      (∀ n ∈ ns, n.range.offset < 2 ^ 32 ∧ n.range.end_offset < 2 ^ 32 ∧
        n.node_type ∈ tb.vec) →
      ∀ (buf : List Nat) (pos : Nat) (rest : List Nat),
        buf.drop pos = (ns.map (nodeBytes tb)).flatten ++ rest →
        readNodes t { buf := buf, pos := pos } ns.length =
          .ok (ns, { buf := buf, pos := pos + ((ns.map (nodeBytes tb)).flatten).length }) := by
  intro ns
  induction ns with
  | nil =>
    intro _ buf pos rest h
    simp [readNodes]
  | cons n ns ih =>
    intro hcond buf pos rest h
    obtain ⟨ho, he, hm⟩ := hcond n (List.mem_cons_self n ns)
    have hidx : posOf n.node_type tb.vec < 2 ^ 32 :=
      Nat.lt_trans (posOf_lt_length hm) hlen
    have h1 : buf.drop pos = le32 n.range.offset ++ (le32 n.range.end_offset ++
        (le32 (posOf n.node_type tb.vec) ++ ((ns.map (nodeBytes tb)).flatten ++ rest))) := by
      simpa [nodeBytes, List.append_assoc] using h
    have hu1 := read_u32_ok h1 ho
    have h2 : buf.drop (pos + 4) = le32 n.range.end_offset ++
        (le32 (posOf n.node_type tb.vec) ++ ((ns.map (nodeBytes tb)).flatten ++ rest)) := by
      simpa [le32_length] using drop_advance h1
    have hu2 := read_u32_ok h2 he
    have h3 : buf.drop (pos + 4 + 4) = le32 (posOf n.node_type tb.vec) ++
        ((ns.map (nodeBytes tb)).flatten ++ rest) := by
      simpa [le32_length] using drop_advance h2
    have hu3 := read_u32_ok h3 hidx
    have h4 : buf.drop (pos + 4 + 4 + 4) = (ns.map (nodeBytes tb)).flatten ++ rest := by
      simpa [le32_length] using drop_advance h3
    have hget : t.get (posOf n.node_type tb.vec) = .ok n.node_type := by
      have hmt : n.node_type ∈ t.vec := ht ▸ hm
      have := tableGet_ok hmt
      rwa [ht] at this
    have hrec := ih (fun m hmm => hcond m (List.mem_cons_of_mem n hmm))
      buf (pos + 4 + 4 + 4) rest h4
    show readNodes t { buf := buf, pos := pos } (ns.length + 1) = _
    unfold readNodes
    rw [hu1]
    simp only [exbind_ok]
    rw [hu2]
    simp only [exbind_ok]
    rw [hu3]
    simp only [exbind_ok]
    rw [hget]
    simp only [exbind_ok]
    rw [hrec]
    simp only [exbind_ok]
    have hpos : pos + 4 + 4 + 4 + ((ns.map (nodeBytes tb)).flatten).length =
        pos + (((n :: ns).map (nodeBytes tb)).flatten).length := by
      simp [nodeBytes, le32]
      omega
    rw [hpos]

theorem readAnns_ok {tb : StringTableBuilder} {t : StringTable} (ht : t.vec = tb.vec)
    (hlen : tb.vec.length < 2 ^ 32) :
    ∀ (as_ : List Annotation),
      (∀ a ∈ as_, a.range.offset < 2 ^ 32 ∧ a.range.end_offset < 2 ^ 32 ∧
        a.text ∈ tb.vec) →
      ∀ (buf : List Nat) (pos : Nat) (rest : List Nat),
        buf.drop pos = (as_.map (annBytes tb)).flatten ++ rest →
        readAnns t { buf := buf, pos := pos } as_.length =
          .ok (as_, { buf := buf, pos := pos + ((as_.map (annBytes tb)).flatten).length }) := by
  intro as_
  induction as_ with
  | nil =>
    intro _ buf pos rest h
    simp [readAnns]
  | cons a as_ ih =>
    intro hcond buf pos rest h
    obtain ⟨ho, he, hm⟩ := hcond a (List.mem_cons_self a as_)
    have hidx : posOf a.text tb.vec < 2 ^ 32 :=
      Nat.lt_trans (posOf_lt_length hm) hlen
    have h1 : buf.drop pos = le32 a.range.offset ++ (le32 a.range.end_offset ++
        (le32 (posOf a.text tb.vec) ++ ((as_.map (annBytes tb)).flatten ++ rest))) := by
      simpa [annBytes, List.append_assoc] using h
    have hu1 := read_u32_ok h1 ho
    have h2 : buf.drop (pos + 4) = le32 a.range.end_offset ++
        (le32 (posOf a.text tb.vec) ++ ((as_.map (annBytes tb)).flatten ++ rest)) := by
      simpa [le32_length] using drop_advance h1
    have hu2 := read_u32_ok h2 he
    have h3 : buf.drop (pos + 4 + 4) = le32 (posOf a.text tb.vec) ++
        ((as_.map (annBytes tb)).flatten ++ rest) := by
      simpa [le32_length] using drop_advance h2
    have hu3 := read_u32_ok h3 hidx
    have h4 : buf.drop (pos + 4 + 4 + 4) = (as_.map (annBytes tb)).flatten ++ rest := by
      simpa [le32_length] using drop_advance h3
    have hget : t.get (posOf a.text tb.vec) = .ok a.text := by
      have hmt : a.text ∈ t.vec := ht ▸ hm
      have := tableGet_ok hmt
      rwa [ht] at this
    have hrec := ih (fun x hx => hcond x (List.mem_cons_of_mem a hx))
      buf (pos + 4 + 4 + 4) rest h4
    show readAnns t { buf := buf, pos := pos } (as_.length + 1) = _
    unfold readAnns
    rw [hu1]
    simp only [exbind_ok]
    rw [hu2]
    simp only [exbind_ok]
    rw [hu3]
    simp only [exbind_ok]
    rw [hget]
    simp only [exbind_ok]
    rw [hrec]
    simp only [exbind_ok]
    have hpos : pos + 4 + 4 + 4 + ((as_.map (annBytes tb)).flatten).length =
        pos + (((a :: as_).map (annBytes tb)).flatten).length := by
      simp [annBytes, le32]
      omega
    rw [hpos]

/-- The per-file decode conditions under which a file record parses back to
itself: every textual field is in the table and every count and offset fits
in 32 bits. -/
def FileOk (tb : StringTableBuilder) (f : File) : Prop :=
  f.path ∈ tb.vec ∧ f.content ∈ tb.vec ∧
  f.tree.length < 2 ^ 32 ∧ f.errors.length < 2 ^ 32 ∧
  (∀ n ∈ f.tree, n.range.offset < 2 ^ 32 ∧ n.range.end_offset < 2 ^ 32 ∧
    n.node_type ∈ tb.vec) ∧
  (∀ a ∈ f.errors, a.range.offset < 2 ^ 32 ∧ a.range.end_offset < 2 ^ 32 ∧
    a.text ∈ tb.vec)

theorem readFiles_ok {tb : StringTableBuilder} {t : StringTable} (ht : t.vec = tb.vec)
    (hlen : tb.vec.length < 2 ^ 32) :
    ∀ (fs : List File), (∀ f ∈ fs, FileOk tb f) →
      ∀ (buf : List Nat) (pos : Nat) (rest : List Nat),
        buf.drop pos = recordsBytes tb fs ++ rest →
        readFiles t { buf := buf, pos := pos } fs.length =
          .ok (fs, { buf := buf, pos := pos + (recordsBytes tb fs).length }) := by
  intro fs
  induction fs with
  | nil =>
    intro _ buf pos rest h
    simp [readFiles, recordsBytes]
  | cons f fs ih =>
    intro hcond buf pos rest h
    obtain ⟨hp, hc, hnl, hel, hns, has⟩ := hcond f (List.mem_cons_self f fs)
    have hpidx : posOf f.path tb.vec < 2 ^ 32 :=
      Nat.lt_trans (posOf_lt_length hp) hlen
    have hcidx : posOf f.content tb.vec < 2 ^ 32 :=
      Nat.lt_trans (posOf_lt_length hc) hlen
    have h1 : buf.drop pos = le32 (posOf f.path tb.vec) ++ (le32 (posOf f.content tb.vec) ++
        (le32 f.tree.length ++ ((f.tree.map (nodeBytes tb)).flatten ++
        (le32 f.errors.length ++ ((f.errors.map (annBytes tb)).flatten ++
        (recordsBytes tb fs ++ rest)))))) := by
      simpa [recordsBytes, fileBytes, List.append_assoc] using h
    have hu1 := read_u32_ok h1 hpidx
    have h2 : buf.drop (pos + 4) = le32 (posOf f.content tb.vec) ++
        (le32 f.tree.length ++ ((f.tree.map (nodeBytes tb)).flatten ++
        (le32 f.errors.length ++ ((f.errors.map (annBytes tb)).flatten ++
        (recordsBytes tb fs ++ rest))))) := by
      simpa [le32_length] using drop_advance h1
    have hu2 := read_u32_ok h2 hcidx
    have h3 : buf.drop (pos + 4 + 4) = le32 f.tree.length ++
        ((f.tree.map (nodeBytes tb)).flatten ++
        (le32 f.errors.length ++ ((f.errors.map (annBytes tb)).flatten ++
        (recordsBytes tb fs ++ rest)))) := by
      simpa [le32_length] using drop_advance h2
    have hu3 := read_u32_ok h3 hnl
    have h4 : buf.drop (pos + 4 + 4 + 4) = (f.tree.map (nodeBytes tb)).flatten ++
        (le32 f.errors.length ++ ((f.errors.map (annBytes tb)).flatten ++
        (recordsBytes tb fs ++ rest))) := by
      simpa [le32_length] using drop_advance h3
    have hnodes := readNodes_ok ht hlen f.tree hns buf (pos + 4 + 4 + 4) _ h4
    have h5 : buf.drop (pos + 4 + 4 + 4 + ((f.tree.map (nodeBytes tb)).flatten).length) =
        le32 f.errors.length ++ ((f.errors.map (annBytes tb)).flatten ++
        (recordsBytes tb fs ++ rest)) :=
      drop_advance h4
    have hu4 := read_u32_ok h5 hel
    have h6 : buf.drop (pos + 4 + 4 + 4 + ((f.tree.map (nodeBytes tb)).flatten).length + 4) =
        (f.errors.map (annBytes tb)).flatten ++ (recordsBytes tb fs ++ rest) := by
      simpa [le32_length] using drop_advance h5
    have hanns := readAnns_ok ht hlen f.errors has buf
      (pos + 4 + 4 + 4 + ((f.tree.map (nodeBytes tb)).flatten).length + 4) _ h6
    have h7 : buf.drop (pos + 4 + 4 + 4 + ((f.tree.map (nodeBytes tb)).flatten).length + 4 +
        ((f.errors.map (annBytes tb)).flatten).length) = recordsBytes tb fs ++ rest :=
      drop_advance h6
    have hgetp : t.get (posOf f.path tb.vec) = .ok f.path := by
      have hmt : f.path ∈ t.vec := ht ▸ hp
      have := tableGet_ok hmt
      rwa [ht] at this
    have hgetc : t.get (posOf f.content tb.vec) = .ok f.content := by
      have hmt : f.content ∈ t.vec := ht ▸ hc
      have := tableGet_ok hmt
      rwa [ht] at this
    have hrec := ih (fun x hx => hcond x (List.mem_cons_of_mem f hx)) buf
      (pos + 4 + 4 + 4 + ((f.tree.map (nodeBytes tb)).flatten).length + 4 +
        ((f.errors.map (annBytes tb)).flatten).length) rest h7
    show readFiles t { buf := buf, pos := pos } (fs.length + 1) = _
    unfold readFiles
    rw [hu1]
    simp only [exbind_ok]
    rw [hu2]
    simp only [exbind_ok]
    rw [hu3]
    simp only [exbind_ok]
    rw [hnodes]
    simp only [exbind_ok]
    rw [hu4]
    simp only [exbind_ok]
    rw [hanns]
    simp only [exbind_ok]
    rw [hgetp]
    simp only [exbind_ok]
    rw [hgetc]
    simp only [exbind_ok]
    rw [hrec]
    simp only [exbind_ok]
    have hpos : pos + 4 + 4 + 4 + ((f.tree.map (nodeBytes tb)).flatten).length + 4 +
        ((f.errors.map (annBytes tb)).flatten).length + (recordsBytes tb fs).length =
        pos + (recordsBytes tb (f :: fs)).length := by
      simp [recordsBytes, fileBytes, le32]
      omega
    rw [hpos]

/-- Every 32-bit field of the container fits: file count, table size and
entry lengths, string-table offset, per-file counts, and range offsets.
Under these bounds no `as u32` cast truncates. -/
def Bounded (p : Project) : Prop :=
  p.files.length < 2 ^ 32 ∧
  (buildTable p).vec.length < 2 ^ 32 ∧
  (∀ s ∈ (buildTable p).vec, s.length < 2 ^ 32) ∧
  13 + (recordsBytes (buildTable p) p.files).length < 2 ^ 32 ∧
  ∀ f ∈ p.files, f.tree.length < 2 ^ 32 ∧ f.errors.length < 2 ^ 32 ∧
    (∀ n ∈ f.tree, n.range.offset < 2 ^ 32 ∧ n.range.end_offset < 2 ^ 32) ∧
    (∀ a ∈ f.errors, a.range.offset < 2 ^ 32 ∧ a.range.end_offset < 2 ^ 32)

instance (p : Project) : Decidable (Bounded p) := by
  unfold Bounded
  infer_instance

theorem decode_encodedBytes {p : Project} (hb : Bounded p) :
    Project.decode (encodedBytes p) = .ok p := by
  obtain ⟨hnf, htl, hts, hso, hfs⟩ := hb
  have hbytes : encodedBytes p = [MAGIC] ++ (le32 ASSET_ENCODING_VERSION ++
      (le32 (13 + (recordsBytes (buildTable p) p.files).length) ++
      (le32 p.files.length ++ (recordsBytes (buildTable p) p.files ++
      (tableBytesFor (buildTable p).vec ++ []))))) := by
    simp [encodedBytes, List.append_assoc]
  have h0 : (encodedBytes p).drop 0 = [MAGIC] ++ (le32 ASSET_ENCODING_VERSION ++
      (le32 (13 + (recordsBytes (buildTable p) p.files).length) ++
      (le32 p.files.length ++ (recordsBytes (buildTable p) p.files ++
      (tableBytesFor (buildTable p).vec ++ []))))) := by
    simpa using hbytes
  have hx0 := readExact_ok h0
  rw [show ([MAGIC] : List Nat).length = 1 from rfl] at hx0
  have h1 : (encodedBytes p).drop (0 + 1) = le32 ASSET_ENCODING_VERSION ++
      (le32 (13 + (recordsBytes (buildTable p) p.files).length) ++
      (le32 p.files.length ++ (recordsBytes (buildTable p) p.files ++
      (tableBytesFor (buildTable p).vec ++ [])))) := by
    simp [hbytes]
  have hv1 := read_u32_ok h1 (by norm_num [ASSET_ENCODING_VERSION])
  have h2 : (encodedBytes p).drop (0 + 1 + 4) =
      le32 (13 + (recordsBytes (buildTable p) p.files).length) ++
      (le32 p.files.length ++ (recordsBytes (buildTable p) p.files ++
      (tableBytesFor (buildTable p).vec ++ []))) := by
    simpa [le32_length] using drop_advance h1
  have hv2 := read_u32_ok h2 hso
  have h3 : (encodedBytes p).drop (0 + 1 + 4 + 4) =
      le32 p.files.length ++ (recordsBytes (buildTable p) p.files ++
      (tableBytesFor (buildTable p).vec ++ [])) := by
    simpa [le32_length] using drop_advance h2
  have hv3 := read_u32_ok h3 hnf
  simp only [Project.decode]
  rw [hx0]
  simp only [exbind_ok]
  simp only [List.headD_cons, ne_eq]
  rw [if_neg (by simp)]
  simp only [expure_bind]
  rw [hv1]
  simp only [exbind_ok]
  rw [if_neg (by simp)]
  rw [hv2]
  simp only [exbind_ok]
  rw [hv3]
  simp only [exbind_ok]
  have htab : (encodedBytes p).drop (13 + (recordsBytes (buildTable p) p.files).length) =
      tableBytesFor (buildTable p).vec ++ [] := by
    rw [hbytes]
    rw [show [MAGIC] ++ (le32 ASSET_ENCODING_VERSION ++
        (le32 (13 + (recordsBytes (buildTable p) p.files).length) ++
        (le32 p.files.length ++ (recordsBytes (buildTable p) p.files ++
        (tableBytesFor (buildTable p).vec ++ []))))) =
        ([MAGIC] ++ le32 ASSET_ENCODING_VERSION ++
          le32 (13 + (recordsBytes (buildTable p) p.files).length) ++
          le32 p.files.length ++ recordsBytes (buildTable p) p.files) ++
        (tableBytesFor (buildTable p).vec ++ []) from by simp [List.append_assoc]]
    rw [List.drop_left' (by simp [le32_length]; omega)]
  have htr := tableRead_ok hts htl htab
  rw [htr]
  simp only [exbind_ok]
  have hfrec : (encodedBytes p).drop (0 + 1 + 4 + 4 + 4) =
      recordsBytes (buildTable p) p.files ++ (tableBytesFor (buildTable p).vec ++ []) := by
    rw [hbytes]
    rw [show [MAGIC] ++ (le32 ASSET_ENCODING_VERSION ++
        (le32 (13 + (recordsBytes (buildTable p) p.files).length) ++
        (le32 p.files.length ++ (recordsBytes (buildTable p) p.files ++
        (tableBytesFor (buildTable p).vec ++ []))))) =
        ([MAGIC] ++ le32 ASSET_ENCODING_VERSION ++
          le32 (13 + (recordsBytes (buildTable p) p.files).length) ++
          le32 p.files.length) ++
        (recordsBytes (buildTable p) p.files ++ (tableBytesFor (buildTable p).vec ++ []))
        from by simp [List.append_assoc]]
    rw [List.drop_left' (by simp [le32_length])]
  have hfok : ∀ f ∈ p.files, FileOk (buildTable p) f := by
    intro f hf
    obtain ⟨hpm, hcm, hnm, ham⟩ := fields_mem_buildTable hf
    obtain ⟨ht1, ht2, ht3, ht4⟩ := hfs f hf
    exact ⟨hpm, hcm, ht1, ht2,
      fun n hn => ⟨(ht3 n hn).1, (ht3 n hn).2, hnm n hn⟩,
      fun a ha => ⟨(ht4 a ha).1, (ht4 a ha).2, ham a ha⟩⟩
  have hread := readFiles_ok (t := { vec := (buildTable p).vec }) rfl htl p.files hfok
    (encodedBytes p) (0 + 1 + 4 + 4 + 4) _ hfrec
  rw [hread]
  simp only [exbind_ok]

/-! ### Truncation lemmas -/

theorem entryFlatten_ne_nil {v : List Str} (h : v ≠ []) :
    (v.map entryBytes).flatten ≠ [] := by
  cases v with
  | nil => exact absurd rfl h
  | cons s v =>
    simp [entryBytes, le32]

theorem readStrings_truncated {v : List Str} (hv : ∀ s ∈ v, s.length < 2 ^ 32) :
    v ≠ [] → ∀ (buf : List Nat) (pos : Nat),
      buf.drop pos = ((v.map entryBytes).flatten).dropLast →
      readStrings { buf := buf, pos := pos } v.length = .error .truncated := by
  induction v with
  | nil => intro h; exact absurd rfl h
  | cons s v ih =>
    intro _ buf pos h
    by_cases hvnil : v = []
    · subst hvnil
      by_cases hsnil : s = []
      · subst hsnil
        have h' : buf.drop pos = [0, 0, 0] := by
          simpa [entryBytes, le32] using h
        have hrem : buf.length - pos < 4 := by
          have := congrArg List.length h'
          simp [List.length_drop] at this
          omega
        show readStrings { buf := buf, pos := pos } (0 + 1) = .error .truncated
        unfold readStrings
        rw [read_u32_err hrem, exbind_error]
      · have h1 : buf.drop pos = le32 s.length ++ s.dropLast := by
          rw [h]
          simp only [List.map_cons, List.map_nil, List.flatten_cons, List.flatten_nil,
            List.append_nil, entryBytes]
          rw [List.dropLast_append_of_ne_nil _ hsnil]
        have hu := read_u32_ok h1 (hv s (List.mem_cons_self s []))
        have h2 : buf.drop (pos + 4) = s.dropLast := by
          simpa [le32_length] using drop_advance h1
        have hrem : buf.length - (pos + 4) < s.length := by
          have := congrArg List.length h2
          simp [List.length_drop] at this
          have hs : 0 < s.length := List.length_pos.mpr hsnil
          omega
        show readStrings { buf := buf, pos := pos } (0 + 1) = .error .truncated
        unfold readStrings
        rw [hu]
        simp only [exbind_ok]
        rw [readExact_err hrem, exbind_error]
    · have hfl : (v.map entryBytes).flatten ≠ [] := entryFlatten_ne_nil hvnil
      have h1 : buf.drop pos = le32 s.length ++
          (s ++ ((v.map entryBytes).flatten).dropLast) := by
        rw [h]
        simp only [List.map_cons, List.flatten_cons, entryBytes]
        rw [List.dropLast_append_of_ne_nil _ hfl]
        simp [List.append_assoc]
      have hu := read_u32_ok h1 (hv s (List.mem_cons_self s v))
      have h2 : buf.drop (pos + 4) = s ++ ((v.map entryBytes).flatten).dropLast := by
        simpa [le32_length] using drop_advance h1
      have hx := readExact_ok h2
      have h3 : buf.drop (pos + 4 + s.length) = ((v.map entryBytes).flatten).dropLast :=
        drop_advance h2
      show readStrings { buf := buf, pos := pos } (v.length + 1) = .error .truncated
      unfold readStrings
      rw [hu]
      simp only [exbind_ok]
      rw [hx]
      simp only [exbind_ok]
      rw [ih (fun t ht => hv t (List.mem_cons_of_mem s ht)) hvnil buf
        (pos + 4 + s.length) h3, exbind_error]

theorem tableRead_truncated {v : List Str} (hv : ∀ s ∈ v, s.length < 2 ^ 32)
    (hn : v.length < 2 ^ 32) {buf : List Nat} {pos : Nat}
    (h : buf.drop pos = (tableBytesFor v).dropLast) :
    StringTable.read { buf := buf, pos := pos } = .error .truncated := by
  by_cases hvnil : v = []
  · subst hvnil
    have h' : buf.drop pos = [0, 0, 0] := by
      simpa [tableBytesFor, le32] using h
    have hrem : buf.length - pos < 4 := by
      have := congrArg List.length h'
      simp [List.length_drop] at this
      omega
    unfold StringTable.read
    rw [read_u32_err hrem, exbind_error]
  · have hfl : (v.map entryBytes).flatten ≠ [] := entryFlatten_ne_nil hvnil
    have h1 : buf.drop pos = le32 v.length ++ ((v.map entryBytes).flatten).dropLast := by
      rw [h]
      unfold tableBytesFor
      rw [List.dropLast_append_of_ne_nil _ hfl]
    have hu := read_u32_ok h1 hn
    have h2 : buf.drop (pos + 4) = ((v.map entryBytes).flatten).dropLast := by
      simpa [le32_length] using drop_advance h1
    unfold StringTable.read
    rw [hu]
    simp only [exbind_ok]
    rw [readStrings_truncated hv hvnil buf (pos + 4) h2, exbind_error]

theorem tableBytesFor_ne_nil (v : List Str) : tableBytesFor v ≠ [] := by
  simp [tableBytesFor, le32]

/-- Removing the final byte of a well-formed container makes `decode` fail
with the truncation error: the lost byte always belongs to the string
table, which is read before any file record is assembled. -/
theorem decode_dropLast {p : Project} (hb : Bounded p) :
    Project.decode ((encodedBytes p).dropLast) = .error .truncated := by
  obtain ⟨hnf, htl, hts, hso, hfs⟩ := hb
  have htblne := tableBytesFor_ne_nil (buildTable p).vec
  have hsplit : encodedBytes p =
      ([MAGIC] ++ le32 ASSET_ENCODING_VERSION ++
        le32 (13 + (recordsBytes (buildTable p) p.files).length) ++
        le32 p.files.length ++ recordsBytes (buildTable p) p.files) ++
      tableBytesFor (buildTable p).vec := by
    simp [encodedBytes, List.append_assoc]
  have hbytes : (encodedBytes p).dropLast = [MAGIC] ++ (le32 ASSET_ENCODING_VERSION ++
      (le32 (13 + (recordsBytes (buildTable p) p.files).length) ++
      (le32 p.files.length ++ (recordsBytes (buildTable p) p.files ++
      (tableBytesFor (buildTable p).vec).dropLast)))) := by
    rw [hsplit, List.dropLast_append_of_ne_nil _ htblne]
    simp [List.append_assoc]
  have h0 : ((encodedBytes p).dropLast).drop 0 = [MAGIC] ++ (le32 ASSET_ENCODING_VERSION ++
      (le32 (13 + (recordsBytes (buildTable p) p.files).length) ++
      (le32 p.files.length ++ (recordsBytes (buildTable p) p.files ++
      (tableBytesFor (buildTable p).vec).dropLast)))) := by
    simpa using hbytes
  have hx0 := readExact_ok h0
  rw [show ([MAGIC] : List Nat).length = 1 from rfl] at hx0
  have h1 : ((encodedBytes p).dropLast).drop (0 + 1) = le32 ASSET_ENCODING_VERSION ++
      (le32 (13 + (recordsBytes (buildTable p) p.files).length) ++
      (le32 p.files.length ++ (recordsBytes (buildTable p) p.files ++
      (tableBytesFor (buildTable p).vec).dropLast))) := by
    simp [hbytes]
  have hv1 := read_u32_ok h1 (by norm_num [ASSET_ENCODING_VERSION])
  have h2 : ((encodedBytes p).dropLast).drop (0 + 1 + 4) =
      le32 (13 + (recordsBytes (buildTable p) p.files).length) ++
      (le32 p.files.length ++ (recordsBytes (buildTable p) p.files ++
      (tableBytesFor (buildTable p).vec).dropLast)) := by
    simpa [le32_length] using drop_advance h1
  have hv2 := read_u32_ok h2 hso
  have h3 : ((encodedBytes p).dropLast).drop (0 + 1 + 4 + 4) =
      le32 p.files.length ++ (recordsBytes (buildTable p) p.files ++
      (tableBytesFor (buildTable p).vec).dropLast) := by
    simpa [le32_length] using drop_advance h2
  have hv3 := read_u32_ok h3 hnf
  have htab : ((encodedBytes p).dropLast).drop
      (13 + (recordsBytes (buildTable p) p.files).length) =
      (tableBytesFor (buildTable p).vec).dropLast := by
    rw [hsplit, List.dropLast_append_of_ne_nil _ htblne]
    rw [List.drop_left' (by simp [le32_length]; omega)]
  have htr := tableRead_truncated hts htl htab
  simp only [Project.decode]
  rw [hx0]
  simp only [exbind_ok]
  simp only [List.headD_cons, ne_eq]
  rw [if_neg (by simp)]
  simp only [expure_bind]
  rw [hv1]
  simp only [exbind_ok]
  rw [if_neg (by simp)]
  rw [hv2]
  simp only [exbind_ok]
  rw [hv3]
  simp only [exbind_ok]
  rw [htr, exbind_error]

/-! ### Deduplication lemmas -/

theorem add_of_mem {b : StringTableBuilder} {s : Str} (h : s ∈ b.vec) :
    b.add s = b := by
  unfold StringTableBuilder.add
  rw [if_pos h]

theorem add_of_not_mem {b : StringTableBuilder} {s : Str} (h : s ∉ b.vec) :
    (b.add s).vec = b.vec ++ [s] := by
  unfold StringTableBuilder.add
  rw [if_neg h]

theorem posOf_append_self {s : Str} {l : List Str} (h : s ∉ l) :
    posOf s (l ++ [s]) = l.length := by
  induction l with
  | nil => simp [posOf]
  | cons t l ih =>
    have ht : t ≠ s := fun hc => h (hc ▸ List.mem_cons_self t l)
    have hs : s ∉ l := fun hc => h (List.mem_cons_of_mem t hc)
    simp [posOf, ht, ih hs]

theorem idx_add_of_not_mem {b : StringTableBuilder} {s : Str} (h : s ∉ b.vec) :
    (b.add s).idx s = some b.vec.length := by
  have hmem : s ∈ (b.add s).vec := self_mem_add b s
  rw [idx_of_mem hmem, add_of_not_mem h, posOf_append_self h]

theorem nodup_add {b : StringTableBuilder} (hb : b.vec.Nodup) (s : Str) :
    (b.add s).vec.Nodup := by
  unfold StringTableBuilder.add
  by_cases h : s ∈ b.vec
  · rwa [if_pos h]
  · rw [if_neg h]
    exact List.Nodup.append hb (List.nodup_singleton s) (by simpa using h)

theorem nodup_addAll {l : List Str} : ∀ {b : StringTableBuilder},
    b.vec.Nodup → (addAll b l).vec.Nodup := by
  induction l with
  | nil => intro b hb; exact hb
  | cons s l ih =>
    intro b hb
    rw [addAll_cons]
    exact ih (nodup_add hb s)

theorem length_add_le (b : StringTableBuilder) (s : Str) :
    (b.add s).vec.length ≤ b.vec.length + 1 := by
  unfold StringTableBuilder.add
  by_cases h : s ∈ b.vec
  · rw [if_pos h]; omega
  · rw [if_neg h]; simp

theorem length_addAll_le (l : List Str) : ∀ b : StringTableBuilder,
    (addAll b l).vec.length ≤ b.vec.length + l.length := by
  induction l with
  | nil => intro b; simp [addAll_nil]
  | cons s l ih =>
    intro b
    rw [addAll_cons]
    calc (addAll (b.add s) l).vec.length ≤ (b.add s).vec.length + l.length := ih _
      _ ≤ b.vec.length + 1 + l.length := by
          have := length_add_le b s
          omega
      _ = b.vec.length + (s :: l).length := by simp [Nat.add_comm, Nat.add_assoc,
            Nat.add_left_comm]

theorem length_addAll_lt (l : List Str) : ∀ b : StringTableBuilder,
    (¬ l.Nodup ∨ ∃ s ∈ l, s ∈ b.vec) →
    (addAll b l).vec.length < b.vec.length + l.length := by
  induction l with
  | nil =>
    intro b h
    rcases h with h | ⟨s, hs, _⟩
    · exact absurd List.nodup_nil h
    · cases hs
  | cons s l ih =>
    intro b h
    rw [addAll_cons]
    by_cases hmem : s ∈ b.vec
    · rw [add_of_mem hmem]
      calc (addAll b l).vec.length ≤ b.vec.length + l.length := length_addAll_le l b
        _ < b.vec.length + (s :: l).length := by simp [Nat.lt_succ_iff, Nat.add_assoc]
    · have hlen : (b.add s).vec.length = b.vec.length + 1 := by
        rw [add_of_not_mem hmem]; simp
      have hnext : ¬ l.Nodup ∨ ∃ t ∈ l, t ∈ (b.add s).vec := by
        rcases h with hnd | ⟨t, htl, htb⟩
        · rw [List.nodup_cons] at hnd
          push_neg at hnd
          by_cases hsl : s ∈ l
          · exact Or.inr ⟨s, hsl, self_mem_add b s⟩
          · exact Or.inl (hnd hsl)
        · rcases List.mem_cons.mp htl with rfl | htl'
          · exact absurd htb hmem
          · exact Or.inr ⟨t, htl', mem_add_of_mem htb⟩
      calc (addAll (b.add s) l).vec.length < (b.add s).vec.length + l.length := ih _ hnext
        _ = b.vec.length + (s :: l).length := by rw [hlen]; simp [Nat.add_comm,
              Nat.add_assoc, Nat.add_left_comm]

theorem one_le_count_content {fs : List File} (j : Fin fs.length) :
    1 ≤ ((fs.map fileStrings).flatten).count (fs.get j).content := by
  refine List.count_pos_iff.mpr ?_
  refine List.mem_flatten.mpr ⟨fileStrings (fs.get j),
    List.mem_map_of_mem _ (fs.get_mem j.val j.isLt), ?_⟩
  simp [fileStrings]

theorem two_le_count_occ_aux : ∀ (fs : List File) (i j : Nat) (hi : i < fs.length)
    (hj : j < fs.length), i < j →
    (fs.get ⟨i, hi⟩).content = (fs.get ⟨j, hj⟩).content →
    2 ≤ ((fs.map fileStrings).flatten).count (fs.get ⟨i, hi⟩).content := by
  intro fs
  induction fs with
  | nil => intro i j hi; simp at hi
  | cons f fs ih =>
    intro i j hi hj hij heq
    match i, j with
    | 0, j + 1 =>
      have hj' : j < fs.length := by simpa using hj
      have heq' : f.content = (fs.get ⟨j, hj'⟩).content := heq
      have h1 : 1 ≤ (fileStrings f).count f.content :=
        List.count_pos_iff.mpr (by simp [fileStrings])
      have h2 : 1 ≤ ((fs.map fileStrings).flatten).count f.content := by
        rw [heq']
        exact one_le_count_content ⟨j, hj'⟩
      show 2 ≤ (((f :: fs).map fileStrings).flatten).count f.content
      rw [List.map_cons, List.flatten_cons, List.count_append]
      omega
    | i + 1, j + 1 =>
      have hi' : i < fs.length := by simpa using hi
      have hj' : j < fs.length := by simpa using hj
      have hrec := ih i j hi' hj' (by omega) heq
      show 2 ≤ (((f :: fs).map fileStrings).flatten).count (fs.get ⟨i, hi'⟩).content
      rw [List.map_cons, List.flatten_cons, List.count_append]
      omega

theorem count_le_one_of_nodup {l : List Str} (h : l.Nodup) (c : Str) :
    l.count c ≤ 1 := by
  induction l with
  | nil => simp
  | cons t l ih =>
    rw [List.nodup_cons] at h
    rw [List.count_cons]
    by_cases hc : t = c
    · subst hc
      have hz : l.count t = 0 := List.count_eq_zero.mpr h.1
      simp [hz]
    · simp [hc, ih h.2]

theorem not_nodup_occ {p : Project} (i j : Fin p.files.length) (hij : i ≠ j)
    (heq : (p.files.get i).content = (p.files.get j).content) :
    ¬ (occList p).Nodup := by
  intro hnd
  have hle := count_le_one_of_nodup hnd
  rcases Nat.lt_or_ge i.val j.val with h | h
  · have h2c := two_le_count_occ_aux p.files i.val j.val i.isLt j.isLt h heq
    simp only [Fin.eta] at h2c
    have h1c := hle (p.files.get i).content
    unfold occList at *
    omega
  · have hlt : j.val < i.val := by
      rcases Nat.lt_or_ge j.val i.val with h2 | h2
      · exact h2
      · exact absurd (Fin.ext (Nat.le_antisymm h2 h)) hij
    have h2c := two_le_count_occ_aux p.files j.val i.val j.isLt i.isLt hlt heq.symm
    simp only [Fin.eta] at h2c
    have h1c := hle (p.files.get j).content
    unfold occList at *
    omega

theorem buildTable_length_lt {p : Project} (i j : Fin p.files.length) (hij : i ≠ j)
    (heq : (p.files.get i).content = (p.files.get j).content) :
    (buildTable p).vec.length < (occList p).length := by
  have hnd := not_nodup_occ i j hij heq
  have := length_addAll_lt (occList p) { vec := [] } (Or.inl hnd)
  rw [buildTable_eq_addAll]
  simpa using this

/-! ### Index-out-of-range propagation -/

/-- A container with a valid header, one file record whose path and content
indices are both `i`, no nodes, no annotations, and a string table holding
the entries of `v`.  Records end at byte 29, where the table begins. -/
def mkBadIndexContainer (v : List Str) (i : Nat) : List Nat :=
  [MAGIC] ++ le32 ASSET_ENCODING_VERSION ++ le32 29 ++ le32 1 ++
  le32 i ++ le32 i ++ le32 0 ++ le32 0 ++ tableBytesFor v

theorem decode_mkBadIndexContainer {v : List Str} {i : Nat}
    (hv : ∀ s ∈ v, s.length < 2 ^ 32) (hn : v.length < 2 ^ 32)
    (hge : v.length ≤ i) (hi32 : i < 2 ^ 32) :
    Project.decode (mkBadIndexContainer v i) = .error (.indexOutOfRange i) := by
  have hbytes : mkBadIndexContainer v i = [MAGIC] ++ (le32 ASSET_ENCODING_VERSION ++
      (le32 29 ++ (le32 1 ++ (le32 i ++ (le32 i ++ (le32 0 ++ (le32 0 ++
      (tableBytesFor v ++ [])))))))) := by
    simp [mkBadIndexContainer, List.append_assoc]
  have h0 : (mkBadIndexContainer v i).drop 0 = [MAGIC] ++ (le32 ASSET_ENCODING_VERSION ++
      (le32 29 ++ (le32 1 ++ (le32 i ++ (le32 i ++ (le32 0 ++ (le32 0 ++
      (tableBytesFor v ++ [])))))))) := by
    simpa using hbytes
  have hx0 := readExact_ok h0
  rw [show ([MAGIC] : List Nat).length = 1 from rfl] at hx0
  have h1 : (mkBadIndexContainer v i).drop (0 + 1) = le32 ASSET_ENCODING_VERSION ++
      (le32 29 ++ (le32 1 ++ (le32 i ++ (le32 i ++ (le32 0 ++ (le32 0 ++
      (tableBytesFor v ++ []))))))) := by
    simp [hbytes]
  have hv1 := read_u32_ok h1 (by norm_num [ASSET_ENCODING_VERSION])
  have h2 : (mkBadIndexContainer v i).drop (0 + 1 + 4) = le32 29 ++
      (le32 1 ++ (le32 i ++ (le32 i ++ (le32 0 ++ (le32 0 ++
      (tableBytesFor v ++ [])))))) := by
    simpa [le32_length] using drop_advance h1
  have hv2 := read_u32_ok h2 (by norm_num)
  have h3 : (mkBadIndexContainer v i).drop (0 + 1 + 4 + 4) =
      le32 1 ++ (le32 i ++ (le32 i ++ (le32 0 ++ (le32 0 ++
      (tableBytesFor v ++ []))))) := by
    simpa [le32_length] using drop_advance h2
  have hv3 := read_u32_ok h3 (by norm_num)
  have h4 : (mkBadIndexContainer v i).drop (0 + 1 + 4 + 4 + 4) =
      le32 i ++ (le32 i ++ (le32 0 ++ (le32 0 ++ (tableBytesFor v ++ [])))) := by
    simpa [le32_length] using drop_advance h3
  have htab : (mkBadIndexContainer v i).drop 29 = tableBytesFor v ++ [] := by
    rw [show mkBadIndexContainer v i = ([MAGIC] ++ le32 ASSET_ENCODING_VERSION ++
      le32 29 ++ le32 1 ++ le32 i ++ le32 i ++ le32 0 ++ le32 0) ++
      (tableBytesFor v ++ []) from by simp [mkBadIndexContainer, List.append_assoc]]
    rw [List.drop_left' (by simp [le32_length])]
  have htr := tableRead_ok hv hn htab
  have hu1 := read_u32_ok h4 hi32
  have h5 : (mkBadIndexContainer v i).drop (0 + 1 + 4 + 4 + 4 + 4) =
      le32 i ++ (le32 0 ++ (le32 0 ++ (tableBytesFor v ++ []))) := by
    simpa [le32_length] using drop_advance h4
  have hu2 := read_u32_ok h5 hi32
  have h6 : (mkBadIndexContainer v i).drop (0 + 1 + 4 + 4 + 4 + 4 + 4) =
      le32 0 ++ (le32 0 ++ (tableBytesFor v ++ [])) := by
    simpa [le32_length] using drop_advance h5
  have hu3 := read_u32_ok h6 (by norm_num)
  have h7 : (mkBadIndexContainer v i).drop (0 + 1 + 4 + 4 + 4 + 4 + 4 + 4) =
      le32 0 ++ (tableBytesFor v ++ []) := by
    simpa [le32_length] using drop_advance h6
  have hu4 := read_u32_ok h7 (by norm_num)
  have hget : ({ vec := v } : StringTable).get i = .error (.indexOutOfRange i) :=
    tableGet_err hge
  simp only [Project.decode]
  rw [hx0]
  simp only [exbind_ok]
  simp only [List.headD_cons, ne_eq]
  rw [if_neg (by simp)]
  simp only [expure_bind]
  rw [hv1]
  simp only [exbind_ok]
  rw [if_neg (by simp)]
  rw [hv2]
  simp only [exbind_ok]
  rw [hv3]
  simp only [exbind_ok]
  rw [htr]
  simp only [exbind_ok]
  rw [show (1 : Nat) = 0 + 1 from rfl]
  unfold readFiles
  rw [hu1]
  simp only [exbind_ok]
  rw [hu2]
  simp only [exbind_ok]
  rw [hu3]
  simp only [exbind_ok]
  simp only [readNodes, exbind_ok]
  rw [hu4]
  simp only [exbind_ok]
  simp only [readAnns, exbind_ok]
  rw [hget]
  simp only [exbind_error]

/-! ### Concrete projects used as witnesses and counterexamples -/

/-- A small project: two files, the second sharing its content with the
first; the first has one node and one annotation. -/
def exampleProject : Project :=
  { files := [
      { path := [102, 111, 111], content := [97, 98],
        tree := [{ range := { offset := 0, end_offset := 10 }, node_type := [70] }],
        errors := [{ range := { offset := 3, end_offset := 7 }, text := [101] }] },
      { path := [98, 97, 114], content := [97, 98], tree := [], errors := [] } ] }

/-- A project with a node offset of `2 ^ 32`, which the `as u32` cast wraps
to `0` on encode. -/
def wrapProject : Project :=
  { files := [
      { path := [], content := [],
        tree := [{ range := { offset := 2 ^ 32, end_offset := 0 }, node_type := [] }],
        errors := [] } ] }

/-- What `wrapProject` decodes back to: the offset has silently become 0. -/
def wrapProjectDecoded : Project :=
  { files := [
      { path := [], content := [],
        tree := [{ range := { offset := 0, end_offset := 0 }, node_type := [] }],
        errors := [] } ] }

/-! ### Claim theorems -/

/-- Claim C1 (counterexample to the unrestricted statement): for the
project whose single node has offset `2 ^ 32`, encoding succeeds but
decoding the result yields a different project (the offset has wrapped to
0), so `decode (encode P) = P` does not hold for every Project. -/
theorem C1_roundtrip_counterexample :
    Project.decode ((wrapProject.encode).getD []) = .ok wrapProjectDecoded ∧
    wrapProjectDecoded ≠ wrapProject := by
  constructor
  · rfl
  · decide

/-- Claim C1 (amended): for every Project all of whose serialized
quantities fit in 32 bits (`Bounded`), decoding the bytes produced by
encoding yields the original Project, structurally equal, including empty
trees, empty annotation lists and zero files. -/
theorem C1_roundtrip (p : Project) (hb : Bounded p) :
    ∃ bs, p.encode = some bs ∧ Project.decode bs = .ok p :=
  ⟨encodedBytes p, encode_eq p, decode_encodedBytes hb⟩

theorem C1_roundtrip_witness :
    Bounded exampleProject ∧
    ∃ bs, exampleProject.encode = some bs ∧ Project.decode bs = .ok exampleProject :=
  ⟨by decide, C1_roundtrip exampleProject (by decide)⟩

/-- Claim C2: after a successful encode, byte 0 is the magic constant,
bytes 1..5 are the little-endian format version, bytes 9..13 the
little-endian file count, and bytes 5..9 (first written as a placeholder)
hold the little-endian byte position right after the last file record,
which is exactly where the string table's serialization is written; when
that position fits in 32 bits the field decodes to it exactly. -/
theorem C2_header_layout (p : Project) :
    ∃ bs, p.encode = some bs ∧
      bs.take 1 = [MAGIC] ∧
      (bs.drop 1).take 4 = le32 ASSET_ENCODING_VERSION ∧
      (bs.drop 9).take 4 = le32 p.files.length ∧
      (bs.drop 5).take 4 = le32 (13 + (recordsBytes (buildTable p) p.files).length) ∧
      bs.take (13 + (recordsBytes (buildTable p) p.files).length) =
        [MAGIC] ++ le32 ASSET_ENCODING_VERSION ++
        le32 (13 + (recordsBytes (buildTable p) p.files).length) ++
        le32 p.files.length ++ recordsBytes (buildTable p) p.files ∧
      bs.drop (13 + (recordsBytes (buildTable p) p.files).length) =
        tableBytesFor (buildTable p).vec ∧
      (13 + (recordsBytes (buildTable p) p.files).length < 2 ^ 32 →
        fromLE32 ((bs.drop 5).take 4) =
          13 + (recordsBytes (buildTable p) p.files).length) := by
  refine ⟨encodedBytes p, encode_eq p, ?_, ?_, ?_, ?_, ?_, ?_, ?_⟩
  · rw [show encodedBytes p = [MAGIC] ++ (le32 ASSET_ENCODING_VERSION ++
      (le32 (13 + (recordsBytes (buildTable p) p.files).length) ++
      (le32 p.files.length ++ (recordsBytes (buildTable p) p.files ++
      tableBytesFor (buildTable p).vec)))) from by simp [encodedBytes, List.append_assoc]]
    rw [List.take_left' (show ([MAGIC] : List Nat).length = 1 from rfl)]
  · rw [show encodedBytes p = [MAGIC] ++ (le32 ASSET_ENCODING_VERSION ++
      (le32 (13 + (recordsBytes (buildTable p) p.files).length) ++
      (le32 p.files.length ++ (recordsBytes (buildTable p) p.files ++
      tableBytesFor (buildTable p).vec)))) from by simp [encodedBytes, List.append_assoc]]
    rw [List.drop_left' (show ([MAGIC] : List Nat).length = 1 from rfl),
      List.take_left' (le32_length _)]
  · rw [show encodedBytes p = ([MAGIC] ++ le32 ASSET_ENCODING_VERSION ++
      le32 (13 + (recordsBytes (buildTable p) p.files).length)) ++
      (le32 p.files.length ++ (recordsBytes (buildTable p) p.files ++
      tableBytesFor (buildTable p).vec)) from by simp [encodedBytes, List.append_assoc]]
    rw [List.drop_left' (by simp [le32_length]), List.take_left' (le32_length _)]
  · rw [show encodedBytes p = ([MAGIC] ++ le32 ASSET_ENCODING_VERSION) ++
      (le32 (13 + (recordsBytes (buildTable p) p.files).length) ++
      (le32 p.files.length ++ (recordsBytes (buildTable p) p.files ++
      tableBytesFor (buildTable p).vec))) from by simp [encodedBytes, List.append_assoc]]
    rw [List.drop_left' (by simp [le32_length]), List.take_left' (le32_length _)]
  · rw [show encodedBytes p = ([MAGIC] ++ le32 ASSET_ENCODING_VERSION ++
      le32 (13 + (recordsBytes (buildTable p) p.files).length) ++
      le32 p.files.length ++ recordsBytes (buildTable p) p.files) ++
      tableBytesFor (buildTable p).vec from by simp [encodedBytes, List.append_assoc]]
    rw [List.take_left' (by simp [le32_length]; omega)]
  · rw [show encodedBytes p = ([MAGIC] ++ le32 ASSET_ENCODING_VERSION ++
      le32 (13 + (recordsBytes (buildTable p) p.files).length) ++
      le32 p.files.length ++ recordsBytes (buildTable p) p.files) ++
      tableBytesFor (buildTable p).vec from by simp [encodedBytes, List.append_assoc]]
    rw [List.drop_left' (by simp [le32_length]; omega)]
  · intro hfit
    rw [show encodedBytes p = ([MAGIC] ++ le32 ASSET_ENCODING_VERSION) ++
      (le32 (13 + (recordsBytes (buildTable p) p.files).length) ++
      (le32 p.files.length ++ (recordsBytes (buildTable p) p.files ++
      tableBytesFor (buildTable p).vec))) from by simp [encodedBytes, List.append_assoc]]
    rw [List.drop_left' (by simp [le32_length]), List.take_left' (le32_length _)]
    exact fromLE32_le32_of_lt hfit

theorem C2_header_layout_witness :
    ∃ bs, exampleProject.encode = some bs ∧
      bs.take 1 = [MAGIC] ∧
      (bs.drop 1).take 4 = le32 ASSET_ENCODING_VERSION ∧
      (bs.drop 9).take 4 = le32 exampleProject.files.length ∧
      (bs.drop 5).take 4 =
        le32 (13 + (recordsBytes (buildTable exampleProject) exampleProject.files).length) ∧
      bs.take (13 + (recordsBytes (buildTable exampleProject) exampleProject.files).length) =
        [MAGIC] ++ le32 ASSET_ENCODING_VERSION ++
        le32 (13 + (recordsBytes (buildTable exampleProject) exampleProject.files).length) ++
        le32 exampleProject.files.length ++
        recordsBytes (buildTable exampleProject) exampleProject.files ∧
      bs.drop (13 + (recordsBytes (buildTable exampleProject) exampleProject.files).length) =
        tableBytesFor (buildTable exampleProject).vec ∧
      (13 + (recordsBytes (buildTable exampleProject) exampleProject.files).length < 2 ^ 32 →
        fromLE32 ((bs.drop 5).take 4) =
          13 + (recordsBytes (buildTable exampleProject) exampleProject.files).length) :=
  C2_header_layout exampleProject

theorem throw_eq {α : Type} (e : DecodeError) :
    (throw e : Except DecodeError α) = Except.error e := rfl

/-- Claim C3: any byte stream whose first byte is not the magic constant
0xde is rejected with the invalid-magic error, whatever the remaining
bytes are, so no field after the magic byte is ever interpreted. -/
theorem C3_magic_gate (b : Nat) (rest : List Nat) (hb : b ≠ MAGIC) :
    Project.decode (b :: rest) = .error (.invalidMagic b) := by
  have h0 : (b :: rest).drop 0 = [b] ++ rest := by simp
  have hx0 := readExact_ok h0
  rw [show ([b] : List Nat).length = 1 from rfl] at hx0
  simp only [Project.decode]
  rw [hx0]
  simp only [exbind_ok]
  simp only [List.headD_cons, ne_eq]
  rw [if_pos hb]
  rw [throw_eq, exbind_error]

theorem C3_magic_gate_witness :
    Project.decode [0, 0, 0, 0, 0] = .error (.invalidMagic 0) :=
  C3_magic_gate 0 [0, 0, 0, 0] (by decide)

/-- Claim C4: a stream that opens with the magic byte but whose 4-byte
little-endian version field differs from 1 is rejected with the
version-mismatch error carrying the read value. -/
theorem C4_version_gate (v4 rest : List Nat) (hlen : v4.length = 4)
    (hv : fromLE32 v4 ≠ ASSET_ENCODING_VERSION) :
    Project.decode (MAGIC :: v4 ++ rest) = .error (.versionMismatch (fromLE32 v4)) := by
  have h0 : (MAGIC :: v4 ++ rest).drop 0 = [MAGIC] ++ (v4 ++ rest) := by simp
  have hx0 := readExact_ok h0
  rw [show ([MAGIC] : List Nat).length = 1 from rfl] at hx0
  have h1 : (MAGIC :: v4 ++ rest).drop (0 + 1) = v4 ++ rest := by simp
  have hx1 := readExact_ok h1
  rw [hlen] at hx1
  have hu : read_u32 { buf := MAGIC :: v4 ++ rest, pos := 0 + 1 } =
      .ok (fromLE32 v4, { buf := MAGIC :: v4 ++ rest, pos := 0 + 1 + 4 }) := by
    unfold read_u32
    rw [hx1]
    rfl
  simp only [Project.decode]
  rw [hx0]
  simp only [exbind_ok]
  simp only [List.headD_cons, ne_eq]
  rw [if_neg (by simp)]
  simp only [expure_bind]
  rw [hu]
  simp only [exbind_ok]
  rw [if_pos hv]
  rw [throw_eq, exbind_error]

theorem C4_version_gate_witness :
    Project.decode (MAGIC :: [2, 0, 0, 0] ++ []) = .error (.versionMismatch 2) :=
  C4_version_gate [2, 0, 0, 0] [] (by decide) (by decide)

/-- Claim C5: a `read_exact` whose requested byte count exceeds the bytes
remaining fails with the truncation error (this covers every fixed-size
field and every string body), and in particular decoding a well-formed
bounded container with its final byte removed fails with the truncation
error instead of returning a Project. -/
theorem C5_truncation :
    (∀ (buf : List Nat) (pos n : Nat), buf.length - pos < n →
      readExact { buf := buf, pos := pos } n = .error .truncated) ∧
    (∀ p : Project, Bounded p →
      p.encode = some (encodedBytes p) ∧
      Project.decode ((encodedBytes p).dropLast) = .error .truncated) :=
  ⟨fun _ _ _ h => readExact_err h,
   fun p hb => ⟨encode_eq p, decode_dropLast hb⟩⟩

theorem C5_truncation_witness :
    readExact { buf := [0, 0, 0], pos := 0 } 4 = .error .truncated ∧
    Project.decode ((encodedBytes exampleProject).dropLast) = .error .truncated :=
  ⟨C5_truncation.1 [0, 0, 0] 0 4 (by decide),
   (C5_truncation.2 exampleProject (by decide)).2⟩

/-- Claim C6: `add` is the identity on already-present strings and appends
a new string at the next sequential index (returned by `idx`); the table
built by encode therefore has pairwise-distinct entries that are exactly
the strings occurring in the project, and when two distinct files share
the same content the entry count is strictly below the total number of
textual field occurrences. -/
theorem C6_dedup :
    (∀ (b : StringTableBuilder) (s : Str), s ∈ b.vec → b.add s = b) ∧
    (∀ (b : StringTableBuilder) (s : Str), s ∉ b.vec →
      (b.add s).vec = b.vec ++ [s] ∧ (b.add s).idx s = some b.vec.length) ∧
    (∀ p : Project, (buildTable p).vec.Nodup ∧
      (∀ s, s ∈ (buildTable p).vec ↔ s ∈ occList p)) ∧
    (∀ (p : Project) (i j : Fin p.files.length), i ≠ j →
      (p.files.get i).content = (p.files.get j).content →
      (buildTable p).vec.length < (occList p).length) :=
  ⟨fun _ _ h => add_of_mem h,
   fun _ _ h => ⟨add_of_not_mem h, idx_add_of_not_mem h⟩,
   fun p => ⟨nodup_addAll (l := occList p) (b := { vec := [] })
       List.nodup_nil |> (buildTable_eq_addAll p ▸ ·),
     fun _ => mem_buildTable⟩,
   fun _ i j hij heq => buildTable_length_lt i j hij heq⟩

theorem C6_dedup_witness :
    (buildTable exampleProject).vec.length < (occList exampleProject).length ∧
    ((({ vec := [] } : StringTableBuilder).add [5]).idx [5] = some 0) := by
  constructor
  · exact C6_dedup.2.2.2 exampleProject ⟨0, by decide⟩ ⟨1, by decide⟩
      (by decide) (by decide)
  · exact (C6_dedup.2.1 { vec := [] } [5] (by decide)).2

/-- Claim C7: `get i` on the decode-side table returns the stored string
when `i` is in range and the index-out-of-range error when `i >= count`;
a container whose file record carries a string index not below the table's
entry count makes the whole decode fail with that error. -/
theorem C7_index_bound :
    (∀ (t : StringTable) (i : Nat) (h : i < t.vec.length),
      t.get i = .ok (t.vec.get ⟨i, h⟩)) ∧
    (∀ (t : StringTable) (i : Nat), t.vec.length ≤ i →
      t.get i = .error (.indexOutOfRange i)) ∧
    (∀ (v : List Str) (i : Nat), (∀ s ∈ v, s.length < 2 ^ 32) →
      v.length < 2 ^ 32 → v.length ≤ i → i < 2 ^ 32 →
      Project.decode (mkBadIndexContainer v i) = .error (.indexOutOfRange i)) := by
  refine ⟨?_, fun _ _ h => tableGet_err h,
    fun _ _ hv hn hge hi => decode_mkBadIndexContainer hv hn hge hi⟩
  intro t i h
  unfold StringTable.get
  rw [List.getElem?_eq_getElem h]
  simp [List.get_eq_getElem]

theorem C7_index_bound_witness :
    ({ vec := [[7]] } : StringTable).get 0 = .ok [7] ∧
    ({ vec := [[7]] } : StringTable).get 5 = .error (.indexOutOfRange 5) ∧
    Project.decode (mkBadIndexContainer [[1]] 3) = .error (.indexOutOfRange 3) :=
  ⟨C7_index_bound.1 { vec := [[7]] } 0 (by decide),
   C7_index_bound.2.1 { vec := [[7]] } 5 (by decide),
   C7_index_bound.2.2 [[1]] 3 (by decide) (by decide) (by decide) (by decide)⟩

/-- Claim C8: every string `encode` looks up was added by the first pass,
so the internal "string not found" branch never fires and `encode` always
returns a byte stream. -/
theorem C8_no_internal_error (p : Project) : (p.encode).isSome = true := by
  rw [encode_eq]
  rfl

/-- Claim C9: `encode` is a function of the Project value alone —
structurally equal Projects yield byte-identical streams — and its output
is the closed form `encodedBytes`, whose string table is laid out in
first-seen insertion order. -/
theorem C9_deterministic :
    (∀ p q : Project, p = q → p.encode = q.encode) ∧
    (∀ p : Project, p.encode = some (encodedBytes p)) :=
  ⟨fun _ _ h => h ▸ rfl, encode_eq⟩

theorem C9_deterministic_witness :
    exampleProject.encode = exampleProject.encode ∧
    exampleProject.encode = some (encodedBytes exampleProject) :=
  ⟨C9_deterministic.1 exampleProject exampleProject rfl,
   C9_deterministic.2 exampleProject⟩

/-- Claim C10: every multi-byte field is serialized as its value reduced
modulo `2 ^ 32` (`le32`), so a field below `2 ^ 32` round-trips exactly
while a larger value is silently wrapped, never rejected: the project with
node offset `2 ^ 32` encodes successfully and decodes with offset 0. -/
theorem C10_u32_wrap :
    (∀ x : Nat, fromLE32 (le32 x) = x % 2 ^ 32) ∧
    (∀ x : Nat, le32 (x % 2 ^ 32) = le32 x) ∧
    (∀ x : Nat, x < 2 ^ 32 → fromLE32 (le32 x) = x) ∧
    (∀ p : Project, p.encode = some (encodedBytes p)) ∧
    Project.decode ((wrapProject.encode).getD []) = .ok wrapProjectDecoded :=
  ⟨fromLE32_le32, le32_mod, fun _ h => fromLE32_le32_of_lt h, encode_eq, by rfl⟩

theorem C10_u32_wrap_witness :
    fromLE32 (le32 7) = 7 ∧ fromLE32 (le32 (2 ^ 32 + 9)) = 9 :=
  ⟨C10_u32_wrap.2.2.1 7 (by decide), by decide⟩

end Asset
